import Mathlib

/-!
# Verification of the point-in-polygon predicate (turf-inside)

Shallow embedding of `src/index.js`: the ray-casting ring-containment test
`inRing` and the exported polygon/multipolygon containment function.

Coordinates are modelled as exact rationals (`ℚ`): the JavaScript source
branches only on exact equality and order comparisons of numbers, and every
arithmetic operation it performs (`-`, `*`, `/`, comparisons) is exact on the
rational inputs used here.  The single place where IEEE semantics matters is
the division `(pt[1] - yi) / (yj - yi)` when `yj - yi = 0`: JavaScript then
produces `NaN`, and both subsequent comparisons (`===` and `<`) with `NaN` are
false, so the edge has no effect.  We model that by an explicit guard
(`vj.2 = vi.2 → pass`) placed exactly where the source falls through with NaN.
-/

namespace TurfInside

/-- `vtx ring i` is `ring[i]` — JS array indexing, with a default that is
never reached for the in-range indices the loop uses. -/
def vtx (ring : List (ℚ × ℚ)) (i : Nat) : ℚ × ℚ :=
  ring.getD i (0, 0)

/-- The "previous" vertex index of the loop header
`for (var i = 0, j = ring.length - 1; i < ring.length; j = i++)`:
`j = ring.length - 1` on the first iteration and `j = i - 1` afterwards
(including right after the in-body extra `i++`, as a trace of the update
`j = i++` shows). -/
def prevIdx (ring : List (ℚ × ℚ)) (i : Nat) : Nat :=
  if i = 0 then ring.length - 1 else i - 1

/-- `var intersect = (xj - xi) * (pt[1] - yi) / (yj - yi) + xi` —
the x-coordinate where the horizontal line `y = pt.2` meets the line through
`vi` and `vj`. -/
def intersectX (pt vi vj : ℚ × ℚ) : ℚ :=
  (vj.1 - vi.1) * (pt.2 - vi.2) / (vj.2 - vi.2) + vi.1

/-- Result of executing the loop body of `inRing` on one edge. -/
inductive EdgeRes where
  | hit
  | toggle
  | pass
deriving DecidableEq

/-- The first guard of the loop body:
`yi === yj && yi === pt[1] && maxx >= pt[0] && minx <= pt[0]`
(the `maxx/minx` of the source are `max`/`min` of the two endpoint
x-coordinates, which is what the two conditional swaps compute):
the point lies exactly on a horizontal segment of the ring. -/
def horizHit (pt vi vj : ℚ × ℚ) : Prop :=
  vi.2 = vj.2 ∧ vi.2 = pt.2 ∧ min vi.1 vj.1 ≤ pt.1 ∧ pt.1 ≤ max vi.1 vj.1

instance (pt vi vj : ℚ × ℚ) : Decidable (horizHit pt vi vj) := by
  unfold horizHit; infer_instance

/-- The second guard: `maxy < pt[1] || miny > pt[1]` — the point's y lies
strictly outside the edge's y-range, the edge is skipped. -/
def yReject (pt vi vj : ℚ × ℚ) : Prop :=
  max vi.2 vj.2 < pt.2 ∨ pt.2 < min vi.2 vj.2

instance (pt vi vj : ℚ × ℚ) : Decidable (yReject pt vi vj) := by
  unfold yReject; infer_instance

/-- The on-segment condition of the loop body: the edge is not horizontal,
the point's y lies within the edge's inclusive y-range, and
`pt[0] === intersect` exactly. -/
def onSegHit (pt vi vj : ℚ × ℚ) : Prop :=
  vi.2 ≠ vj.2 ∧ ¬yReject pt vi vj ∧ pt.1 = intersectX pt vi vj

instance (pt vi vj : ℚ × ℚ) : Decidable (onSegHit pt vi vj) := by
  unfold onSegHit; infer_instance

/-- Per-edge classification of the loop body of `inRing`, for one edge with
current vertex `vi = ring[i]` and previous vertex `vj = ring[j]`:

* `hit`    — the body executes `return true`
  (horizontal-segment hit, or on-segment hit `pt[0] === intersect`);
* `pass`   — the body falls through without touching `isInside`
  (y-range reject; or the NaN fall-through when `yj === yi`, see the file
  docstring; or `pt[0] > intersect`);
* `toggle` — `pt[0] < intersect`, the body flips `isInside`.

The branch ladder below is in exactly the order of the source. -/
def edgeResCore (pt vi vj : ℚ × ℚ) : EdgeRes :=
  if horizHit pt vi vj then
    EdgeRes.hit
  else if yReject pt vi vj then
    EdgeRes.pass
  else if vj.2 = vi.2 then
    EdgeRes.pass
  else if pt.1 = intersectX pt vi vj then
    EdgeRes.hit
  else if pt.1 < intersectX pt vi vj then
    EdgeRes.toggle
  else
    EdgeRes.pass

/-- The loop of `inRing`, one recursive call per executed iteration.
`fuel` only bounds the number of iterations (each iteration advances `i` by at
least 1, so `fuel = ring.length` at the call site is never exhausted); `i` is
the loop counter and `isInside` the running parity flag.  In the `toggle` case,
`if (yi === pt[1]) i++` of the source makes the next edge index `i + 2`:
the immediately following edge is never evaluated. -/
def inRingAux (pt : ℚ × ℚ) (ring : List (ℚ × ℚ)) : Nat → Nat → Bool → Bool
  | 0, _, isInside => isInside
  | fuel + 1, i, isInside =>
    if i < ring.length then
      match edgeResCore pt (vtx ring i) (vtx ring (prevIdx ring i)) with
      | EdgeRes.hit => true
      | EdgeRes.pass => inRingAux pt ring fuel (i + 1) isInside
      | EdgeRes.toggle =>
        if (vtx ring i).2 = pt.2 then
          inRingAux pt ring fuel (i + 2) (!isInside)
        else
          inRingAux pt ring fuel (i + 1) (!isInside)
    else isInside

/-- `function inRing(pt, ring)` of `src/index.js`. -/
def inRing (pt : ℚ × ℚ) (ring : List (ℚ × ℚ)) : Bool :=
  inRingAux pt ring ring.length 0 false

/-- The GeoJSON-like geometry carried by the second argument of the exported
function: a Point (coordinate pair), a Polygon (list of rings, outer first),
or a MultiPolygon (list of polygons). -/
inductive Geometry where
  | point : ℚ × ℚ → Geometry
  | polygon : List (List (ℚ × ℚ)) → Geometry
  | multiPolygon : List (List (List (ℚ × ℚ))) → Geometry

/-- One iteration of the outer `while` loop for the polygon `polys[i]`:
`inRing(pt, polys[i][0])`, then the holes `polys[i][1..]`.
A polygon with no rings at all makes the source evaluate
`inRing(pt, undefined)`, which throws a `TypeError` (`undefined.length`):
modelled as `none`. -/
def polygonContains (pt : ℚ × ℚ) (poly : List (List (ℚ × ℚ))) : Option Bool :=
  match poly with
  | [] => none
  | outer :: holes =>
    if inRing pt outer then some (!holes.any fun h => inRing pt h)
    else some false

/-- The outer `while (i < polys.length && !insidePoly)` loop. -/
def polysLoop (pt : ℚ × ℚ) : List (List (List (ℚ × ℚ))) → Option Bool
  | [] => some false
  | poly :: rest =>
    match polygonContains pt poly with
    | none => none
    | some true => some true
    | some false => polysLoop pt rest

/-- `module.exports = function(point, polygon)` of `src/index.js`.
For a `Polygon` the source wraps the coordinates: `polys = [polys]`.
For a `Point` surface the source has no special case: `polys` is the
coordinate pair `[x, y]`, so the first loop iteration evaluates
`polys[0][0]`, i.e. `(number)[0] = undefined`, and `inRing(pt, undefined)`
throws a `TypeError` — modelled as `none`.  (`invariant.featureOf` only
validates the first argument, which is a well-formed point here by typing.) -/
def inside (point : ℚ × ℚ) (surface : Geometry) : Option Bool :=
  match surface with
  | Geometry.point _ => none
  | Geometry.polygon coords => polysLoop point [coords]
  | Geometry.multiPolygon coords => polysLoop point coords

/-! ## Concrete geometries used in the claims -/

/-- The unit square ring `[(0,0),(1,0),(1,1),(0,1)]`. -/
def unitSquare : List (ℚ × ℚ) := [(0, 0), (1, 0), (1, 1), (0, 1)]

/-- The unit square translated to `(5,5)-(6,6)`. -/
def farSquare : List (ℚ × ℚ) := [(5, 5), (6, 5), (6, 6), (5, 6)]

/-- Outer ring `[(0,0),(2,0),(2,2),(0,2)]` of the holed polygon. -/
def holedOuter : List (ℚ × ℚ) := [(0, 0), (2, 0), (2, 2), (0, 2)]

/-- Hole ring `[(0.5,0.5),(1.5,0.5),(1.5,1.5),(0.5,1.5)]` of the holed polygon. -/
def holedHole : List (ℚ × ℚ) :=
  [(1/2, 1/2), (3/2, 1/2), (3/2, 3/2), (1/2, 3/2)]

/-- A simple hexagon whose edge from `(2,0)` to `(0,0)` is horizontal and
contains the point `(1,0)`; the edge from `(0,-1)` to `(2,0)` toggles the
parity at the shared vertex `(2,0)` (its leading y equals `0`), so the
following horizontal edge is skipped by the extra index advance. -/
def hexRing : List (ℚ × ℚ) :=
  [(0, -1), (2, 0), (0, 0), (0, 5), (3, 5), (3, -2)]

/-- A simple pentagon: the closing edge from `(3,-2)` back to `(2,0)` toggles
the parity at the leading vertex `(2,0)` (whose y equals `0`), so the first
real edge — the horizontal segment from `(2,0)` to `(0,0)`, which contains
the point `(1,0)` — is skipped in the open form. -/
def pentRing : List (ℚ × ℚ) :=
  [(2, 0), (0, 0), (0, 5), (3, 5), (3, -2)]

/-- A triangle with one edge, from `(0,-1)` to `(2,0)`, ending exactly on the
ray `y = 0`. -/
def triRing : List (ℚ × ℚ) := [(0, -1), (2, 0), (0, 1)]

/-! ## Instrumentation and proof-side functions -/

/-- Instrumented replay of the `inRing` loop that reports whether some
executed iteration reaches the statement
`var intersect = (xj - xi) * (pt[1] - yi) / (yj - yi) + xi`
with a zero denominator `yj - yi = 0`.  The control flow (early `return true`
exits, the y-range `continue`, the extra index advance after a vertex-aligned
toggle) is exactly that of `inRingAux`; the branch that returns `true` here is
exactly the NaN fall-through case of `edgeResCore` (both guards failed and
`yj === yi`), which is the only way the source evaluates the division with a
zero denominator. -/
def divZeroAux (pt : ℚ × ℚ) (ring : List (ℚ × ℚ)) : Nat → Nat → Bool
  | 0, _ => false
  | fuel + 1, i =>
    if i < ring.length then
      if horizHit pt (vtx ring i) (vtx ring (prevIdx ring i)) then false
      else if yReject pt (vtx ring i) (vtx ring (prevIdx ring i)) then
        divZeroAux pt ring fuel (i + 1)
      else if (vtx ring (prevIdx ring i)).2 = (vtx ring i).2 then true
      else if pt.1 = intersectX pt (vtx ring i) (vtx ring (prevIdx ring i)) then false
      else if pt.1 < intersectX pt (vtx ring i) (vtx ring (prevIdx ring i)) then
        if (vtx ring i).2 = pt.2 then divZeroAux pt ring fuel (i + 2)
        else divZeroAux pt ring fuel (i + 1)
      else divZeroAux pt ring fuel (i + 1)
    else false

/-- `inRingDivZero pt ring` is `true` iff running `inRing pt ring` evaluates
the intersection division with a zero denominator at some edge. -/
def inRingDivZero (pt : ℚ × ℚ) (ring : List (ℚ × ℚ)) : Bool :=
  divZeroAux pt ring ring.length 0

/-- Replay of an edge-result list, as the `inRing` loop would consume it when
no extra index advance fires: a `hit` returns `true` immediately, a `toggle`
flips the flag, a `pass` leaves it unchanged. -/
def processRes : List EdgeRes → Bool → Bool
  | [], b => b
  | EdgeRes.hit :: _, _ => true
  | EdgeRes.toggle :: es, b => processRes es (!b)
  | EdgeRes.pass :: es, b => processRes es b

/-- The list of edge results of `ring` for the `c` edge indices
`i, i + 1, …, i + c - 1` (call with `c = ring.length - i`). -/
def resList (pt : ℚ × ℚ) (ring : List (ℚ × ℚ)) : Nat → Nat → List EdgeRes
  | 0, _ => []
  | c + 1, i => edgeResCore pt (vtx ring i) (vtx ring (prevIdx ring i)) ::
      resList pt ring c (i + 1)

/-- Whether an edge result is a `hit`. -/
def isHit : EdgeRes → Bool
  | EdgeRes.hit => true
  | _ => false

/-- Whether an edge result is a `toggle`. -/
def isToggle : EdgeRes → Bool
  | EdgeRes.toggle => true
  | _ => false

/-- No vertex of `ring` lies exactly on the horizontal ray through `pt`. -/
def noVertexOnRay (pt : ℚ × ℚ) (ring : List (ℚ × ℚ)) : Prop :=
  ∀ v ∈ ring, v.2 ≠ pt.2

/-! ## Basic lemmas about the per-edge classification -/

/-- When the leading vertex lies exactly on the ray (`yi = pt.y`), the
computed intersection x-coordinate is `xi`: the numerator factor
`pt[1] - yi` vanishes. -/
theorem intersectX_of_vi_on_ray {pt vi vj : ℚ × ℚ} (h : vi.2 = pt.2) :
    intersectX pt vi vj = vi.1 := by
  simp [intersectX, h]

/-- When the trailing vertex lies exactly on the ray (`yj = pt.y`) and the
edge is not horizontal, the computed intersection x-coordinate is `xj`. -/
theorem intersectX_of_vj_on_ray {pt vi vj : ℚ × ℚ} (h : vj.2 = pt.2)
    (h' : vi.2 ≠ pt.2) : intersectX pt vi vj = vj.1 := by
  have hd : pt.2 - vi.2 ≠ 0 := sub_ne_zero.mpr (Ne.symm h')
  rw [intersectX, h, mul_div_assoc, div_self hd, mul_one]
  ring

theorem edgeResCore_hit_iff (pt vi vj : ℚ × ℚ) :
    edgeResCore pt vi vj = EdgeRes.hit ↔
      horizHit pt vi vj ∨ onSegHit pt vi vj := by
  unfold edgeResCore onSegHit
  split_ifs with h1 h2 h3 h4 h5 <;> simp_all
  tauto

theorem edgeResCore_toggle_iff (pt vi vj : ℚ × ℚ) :
    edgeResCore pt vi vj = EdgeRes.toggle ↔
      ¬horizHit pt vi vj ∧ ¬yReject pt vi vj ∧ vj.2 ≠ vi.2 ∧
        pt.1 ≠ intersectX pt vi vj ∧ pt.1 < intersectX pt vi vj := by
  unfold edgeResCore
  split_ifs with h1 h2 h3 h4 h5 <;> simp_all

/-- `ring[i]` is a member of `ring` whenever `i` is in range. -/
theorem vtx_mem {ring : List (ℚ × ℚ)} {i : Nat} (h : i < ring.length) :
    vtx ring i ∈ ring := by
  induction ring generalizing i with
  | nil => simp at h
  | cons a t ih =>
    cases i with
    | zero => simp [vtx]
    | succ n =>
      have : vtx (a :: t) (n + 1) = vtx t n := by simp [vtx, List.getD]
      rw [this]
      exact List.mem_cons_of_mem _ (ih (by simpa using h))

/-- An edge (`yj = yi`) reaching the NaN fall-through (both guards failed)
has both endpoints on the ray with the point's x strictly outside its
x-range. -/
theorem horizMiss_of_guards {pt vi vj : ℚ × ℚ} (h1 : ¬horizHit pt vi vj)
    (h2 : ¬yReject pt vi vj) (h3 : vj.2 = vi.2) :
    vi.2 = vj.2 ∧ vi.2 = pt.2 ∧
      (pt.1 < min vi.1 vj.1 ∨ max vi.1 vj.1 < pt.1) := by
  have hyy : vi.2 = vj.2 := h3.symm
  have hy : vi.2 = pt.2 := by
    rw [yReject, ← hyy, max_self, min_self, not_or, not_lt, not_lt] at h2
    exact le_antisymm h2.2 h2.1
  have hx : ¬(min vi.1 vj.1 ≤ pt.1 ∧ pt.1 ≤ max vi.1 vj.1) := fun hc =>
    h1 ⟨hyy, hy, hc.1, hc.2⟩
  refine ⟨hyy, hy, ?_⟩
  rcases not_and_or.mp hx with hl | hr
  · exact Or.inl (not_le.mp hl)
  · exact Or.inr (not_le.mp hr)

/-- If the instrumented loop reports a zero-denominator division, then some
in-range edge has both endpoint y-values equal to the point's y while the
point's x lies strictly outside the edge's x-range. -/
theorem divZeroAux_imp (pt : ℚ × ℚ) (ring : List (ℚ × ℚ)) :
    ∀ fuel i, divZeroAux pt ring fuel i = true →
      ∃ k < ring.length,
        (vtx ring k).2 = (vtx ring (prevIdx ring k)).2 ∧
        (vtx ring k).2 = pt.2 ∧
        (pt.1 < min (vtx ring k).1 (vtx ring (prevIdx ring k)).1 ∨
          max (vtx ring k).1 (vtx ring (prevIdx ring k)).1 < pt.1) := by
  intro fuel
  induction fuel with
  | zero => intro i h; simp [divZeroAux] at h
  | succ fuel ih =>
    intro i h
    rw [divZeroAux] at h
    split_ifs at h with hi h1 h2 h3 h4 h5 h6
    all_goals try exact ih _ h
    all_goals try simp at h
    exact ⟨i, hi, horizMiss_of_guards h1 h2 h3⟩

/-- The edge skipped by the extra index advance can never be an on-segment
hit: a toggle at index `i` with `yi = pt.y` forces `pt.x < xi`, while an
on-segment hit at index `i + 1` (whose trailing vertex is `ring[i]`) would
force `pt.x = xi`. -/
theorem not_onSegHit_next (pt : ℚ × ℚ) (ring : List (ℚ × ℚ)) (i : Nat)
    (ht : edgeResCore pt (vtx ring i) (vtx ring (prevIdx ring i)) =
      EdgeRes.toggle)
    (hy : (vtx ring i).2 = pt.2) :
    ¬onSegHit pt (vtx ring (i + 1)) (vtx ring (prevIdx ring (i + 1))) := by
  intro hseg
  have hprev : prevIdx ring (i + 1) = i := by simp [prevIdx]
  rw [hprev] at hseg
  obtain ⟨hne, hrange, heq⟩ := hseg
  have hvine : (vtx ring (i + 1)).2 ≠ pt.2 := fun hc => hne (hc.trans hy.symm)
  have hx : pt.1 = (vtx ring i).1 := by
    rw [heq, intersectX_of_vj_on_ray hy hvine]
  obtain ⟨-, -, -, -, hlt⟩ := (edgeResCore_toggle_iff _ _ _).mp ht
  rw [intersectX_of_vi_on_ray hy] at hlt
  exact absurd hx (ne_of_lt hlt)

/-- If some edge at index `k ≥ i` is an on-segment hit, the loop started at
index `i` (with any parity) returns `true`: the scan reaches the edge — the
only indices it omits are those right after a vertex-aligned toggle, and by
`not_onSegHit_next` such an index cannot carry the hit. -/
theorem inRingAux_onSeg_reach (pt : ℚ × ℚ) (ring : List (ℚ × ℚ)) :
    ∀ fuel i b k, i ≤ k → k < ring.length → ring.length ≤ fuel + i →
      onSegHit pt (vtx ring k) (vtx ring (prevIdx ring k)) →
      inRingAux pt ring fuel i b = true := by
  intro fuel
  induction fuel with
  | zero =>
    intro i b k hik hk hlen _
    exact absurd hk (by omega)
  | succ fuel ih =>
    intro i b k hik hk hlen hseg
    have hi : i < ring.length := lt_of_le_of_lt hik hk
    have hhit : edgeResCore pt (vtx ring k) (vtx ring (prevIdx ring k)) =
        EdgeRes.hit := (edgeResCore_hit_iff _ _ _).mpr (Or.inr hseg)
    cases hres : edgeResCore pt (vtx ring i) (vtx ring (prevIdx ring i)) with
    | hit => rw [inRingAux, if_pos hi, hres]
    | pass =>
      rw [inRingAux, if_pos hi, hres]
      have hki : k ≠ i := by
        rintro rfl
        rw [hhit] at hres
        simp at hres
      exact ih (i + 1) b k (by omega) hk (by omega) hseg
    | toggle =>
      rw [inRingAux, if_pos hi, hres]
      have hki : k ≠ i := by
        rintro rfl
        rw [hhit] at hres
        simp at hres
      by_cases hy : (vtx ring i).2 = pt.2
      · rw [if_pos hy]
        have hki1 : k ≠ i + 1 := by
          rintro rfl
          exact not_onSegHit_next pt ring i hres hy hseg
        exact ih (i + 2) (!b) k (by omega) hk (by omega) hseg
      · rw [if_neg hy]
        exact ih (i + 1) (!b) k (by omega) hk (by omega) hseg

/-- The outer loop returns `some true` iff some member polygon (all assumed
to have an outer ring) contains the point: outer ring containment and no
hole containment. -/
theorem polysLoop_true_iff (pt : ℚ × ℚ) :
    ∀ polys : List (List (List (ℚ × ℚ))), (∀ p ∈ polys, p ≠ []) →
      (polysLoop pt polys = some true ↔
        ∃ p ∈ polys, inRing pt (p.headD []) = true ∧
          ∀ hole ∈ p.tail, inRing pt hole = false) := by
  intro polys
  induction polys with
  | nil => intro _; simp [polysLoop]
  | cons p rest ih =>
    intro h
    obtain ⟨outer, holes, rfl⟩ : ∃ outer holes, p = outer :: holes := by
      match p, h p (List.mem_cons_self p rest) with
      | [], hp => exact absurd rfl hp
      | a :: t, _ => exact ⟨a, t, rfl⟩
    have hrest : ∀ q ∈ rest, q ≠ [] := fun q hq => h q (List.mem_cons_of_mem _ hq)
    by_cases hout : inRing pt outer = true
    · by_cases hany : (holes.any fun k => inRing pt k) = true
      · have hpc : polygonContains pt (outer :: holes) = some false := by
          simp [polygonContains, hout, hany]
        rw [polysLoop, hpc, ih hrest]
        have hnp : ¬(inRing pt ((outer :: holes).headD []) = true ∧
            ∀ hole ∈ (outer :: holes).tail, inRing pt hole = false) := by
          obtain ⟨k, hk, hik⟩ := List.any_eq_true.mp hany
          rintro ⟨-, hall⟩
          simp [hall k (by simpa using hk)] at hik
        simp only [List.mem_cons, exists_eq_or_imp]
        tauto
      · have hpc : polygonContains pt (outer :: holes) = some true := by
          simp only [polygonContains, hout, if_true]
          simp [Bool.eq_false_iff.mpr, hany]
        rw [polysLoop, hpc]
        have hp : inRing pt ((outer :: holes).headD []) = true ∧
            ∀ hole ∈ (outer :: holes).tail, inRing pt hole = false := by
          refine ⟨by simpa using hout, ?_⟩
          intro hole hm
          have := List.any_eq_false.mp (Bool.not_eq_true _ ▸ hany) hole (by simpa using hm)
          simpa using this
        simp only [List.mem_cons, exists_eq_or_imp]
        tauto
    · have hpc : polygonContains pt (outer :: holes) = some false := by
        simp [polygonContains, hout]
      rw [polysLoop, hpc, ih hrest]
      have hnp : ¬(inRing pt ((outer :: holes).headD []) = true ∧
          ∀ hole ∈ (outer :: holes).tail, inRing pt hole = false) := by
        rintro ⟨hh, -⟩
        simp at hh
        exact hout hh
      simp only [List.mem_cons, exists_eq_or_imp]
      tauto

/-! ## Open/closed ring machinery (for C7) -/

theorem vtx_cons_zero (a : ℚ × ℚ) (l : List (ℚ × ℚ)) : vtx (a :: l) 0 = a :=
  rfl

theorem vtx_cons_succ (a : ℚ × ℚ) (l : List (ℚ × ℚ)) (n : Nat) :
    vtx (a :: l) (n + 1) = vtx l n := rfl

/-- Indexing an append on the left part. -/
theorem vtx_append (r s : List (ℚ × ℚ)) (i : Nat) (h : i < r.length) :
    vtx (r ++ s) i = vtx r i := by
  induction r generalizing i with
  | nil => simp at h
  | cons a t ih =>
    cases i with
    | zero => rfl
    | succ n =>
      rw [List.cons_append, vtx_cons_succ, vtx_cons_succ]
      exact ih n (by simpa using h)

/-- Indexing the appended closing vertex. -/
theorem vtx_concat_self (r : List (ℚ × ℚ)) (v : ℚ × ℚ) :
    vtx (r ++ [v]) r.length = v := by
  induction r with
  | nil => rfl
  | cons a t ih =>
    rw [List.cons_append, List.length_cons, vtx_cons_succ]
    exact ih

/-- A zero-length (degenerate) edge whose vertex is off the ray is a `pass`:
the horizontal-hit guard fails on `yi = pt.y` and the y-range reject fires. -/
theorem edgeResCore_self (pt v : ℚ × ℚ) (h : v.2 ≠ pt.2) :
    edgeResCore pt v v = EdgeRes.pass := by
  have hrej : yReject pt v v := by
    rw [yReject, max_self, min_self]
    exact lt_or_gt_of_ne h
  have hnh : ¬horizHit pt v v := fun hc => h hc.2.1
  rw [edgeResCore, if_neg hnh, if_pos hrej]

theorem parity_flip (n : Nat) :
    decide ((n + 1) % 2 = 1) = !decide (n % 2 = 1) := by
  have h : ((n + 1) % 2 = 1) ↔ ¬(n % 2 = 1) := by omega
  rw [decide_eq_decide.mpr h, decide_not]

theorem xor_not_left_eq (b p : Bool) : Bool.xor (!b) p = Bool.xor b (!p) := by
  cases b <;> cases p <;> rfl

/-- Replaying an edge-result list is insensitive to order: a `hit` anywhere
gives `true`, otherwise the result is the parity of the number of `toggle`s
against the initial flag. -/
theorem processRes_eq (es : List EdgeRes) (b : Bool) :
    processRes es b =
      (es.any isHit ||
        Bool.xor b (decide (es.countP isToggle % 2 = 1))) := by
  induction es generalizing b with
  | nil => simp [processRes]
  | cons e es ih =>
    cases e with
    | hit => simp [processRes, isHit]
    | toggle =>
      rw [processRes, ih]
      simp only [List.any_cons, List.countP_cons]
      simp only [isHit, isToggle, if_true, Bool.false_or, cond_true]
      rw [parity_flip, xor_not_left_eq]
    | pass =>
      rw [processRes, ih]
      simp only [List.any_cons, List.countP_cons]
      simp [isHit, isToggle]

/-- Moving one edge result from the front to the back does not change the
replayed outcome. -/
theorem processRes_rotate (e : EdgeRes) (es : List EdgeRes) (b : Bool) :
    processRes (e :: es) b = processRes (es ++ [e]) b := by
  rw [processRes_eq, processRes_eq]
  simp only [List.any_cons, List.any_append, List.countP_cons,
    List.countP_append, List.any_nil, List.countP_nil]
  cases he : isHit e <;> cases hes : es.any isHit <;>
    simp [Nat.add_comm, Bool.or_comm]

/-- When no vertex lies on the ray, no extra index advance ever fires, and
the loop from index `i` is exactly the replay of the edge results of the
remaining indices. -/
theorem inRingAux_eq_processRes (pt : ℚ × ℚ) (ring : List (ℚ × ℚ))
    (hna : noVertexOnRay pt ring) :
    ∀ fuel i b, ring.length ≤ fuel + i →
      inRingAux pt ring fuel i b =
        processRes (resList pt ring (ring.length - i) i) b := by
  intro fuel
  induction fuel with
  | zero =>
    intro i b hlen
    have h0 : ring.length - i = 0 := by omega
    rw [h0]
    rfl
  | succ fuel ih =>
    intro i b hlen
    by_cases hi : i < ring.length
    · have hc : ring.length - i = (ring.length - (i + 1)) + 1 := by omega
      rw [hc, resList]
      cases hres : edgeResCore pt (vtx ring i) (vtx ring (prevIdx ring i)) with
      | hit =>
        rw [inRingAux, if_pos hi, hres]
        rfl
      | pass =>
        rw [inRingAux, if_pos hi, hres]
        rw [show processRes (EdgeRes.pass :: resList pt ring
          (ring.length - (i + 1)) (i + 1)) b = processRes (resList pt ring
          (ring.length - (i + 1)) (i + 1)) b from rfl]
        exact ih (i + 1) b (by omega)
      | toggle =>
        have hy : (vtx ring i).2 ≠ pt.2 := hna _ (vtx_mem hi)
        rw [inRingAux, if_pos hi, hres, if_neg hy]
        rw [show processRes (EdgeRes.toggle :: resList pt ring
          (ring.length - (i + 1)) (i + 1)) b = processRes (resList pt ring
          (ring.length - (i + 1)) (i + 1)) (!b) from rfl]
        exact ih (i + 1) (!b) (by omega)
    · have h0 : ring.length - i = 0 := by omega
      rw [h0, inRingAux, if_neg hi]
      rfl

/-- Edge results of the explicitly closed ring `r ++ [v]` (for `r = v :: rest`)
from index `k ≥ 1` on: the same as those of the open ring from `k` on,
followed by the open ring's closing edge (index 0) — the appended vertex
copies `v`, and the last edge of the closed form runs from `r.length - 1`
to the copy of `v`, exactly the open form's wrap-around edge with the same
orientation. -/
theorem resList_closed (pt v : ℚ × ℚ) (rest : List (ℚ × ℚ)) :
    ∀ c k, 1 ≤ k → k + c + 1 = (v :: rest).length + 1 →
      resList pt ((v :: rest) ++ [v]) (c + 1) k =
        resList pt (v :: rest) c k ++
          [edgeResCore pt (vtx (v :: rest) 0)
            (vtx (v :: rest) (prevIdx (v :: rest) 0))] := by
  intro c
  induction c with
  | zero =>
    intro k h1 h2
    have hk : k = (v :: rest).length := by omega
    subst hk
    rw [resList, resList, resList]
    have hvi : vtx ((v :: rest) ++ [v]) (v :: rest).length = v :=
      vtx_concat_self _ _
    have hprev : prevIdx ((v :: rest) ++ [v]) (v :: rest).length =
        (v :: rest).length - 1 := by
      rw [prevIdx, if_neg (by simp)]
    have hprev0 : prevIdx (v :: rest) 0 = (v :: rest).length - 1 := by
      rw [prevIdx, if_pos rfl]
    have hvj : vtx ((v :: rest) ++ [v]) ((v :: rest).length - 1) =
        vtx (v :: rest) ((v :: rest).length - 1) :=
      vtx_append _ _ _ (by simp)
    rw [hvi, hprev, hvj, hprev0, vtx_cons_zero]
    rfl
  | succ c ih =>
    intro k h1 h2
    have hk : k < (v :: rest).length := by
      simp only [List.length_cons] at h2 ⊢
      omega
    have hpc : prevIdx ((v :: rest) ++ [v]) k = k - 1 := by
      rw [prevIdx, if_neg (by omega)]
    have hpo : prevIdx (v :: rest) k = k - 1 := by
      rw [prevIdx, if_neg (by omega)]
    have lhs_eq : resList pt ((v :: rest) ++ [v]) (c + 1 + 1) k =
        edgeResCore pt (vtx ((v :: rest) ++ [v]) k)
          (vtx ((v :: rest) ++ [v]) (prevIdx ((v :: rest) ++ [v]) k)) ::
        resList pt ((v :: rest) ++ [v]) (c + 1) (k + 1) := rfl
    have rhs_eq : resList pt (v :: rest) (c + 1) k =
        edgeResCore pt (vtx (v :: rest) k)
          (vtx (v :: rest) (prevIdx (v :: rest) k)) ::
        resList pt (v :: rest) c (k + 1) := rfl
    rw [lhs_eq, rhs_eq, hpc, hpo, vtx_append _ _ _ hk,
      vtx_append _ _ _ (by omega), ih (k + 1) (by omega) (by omega)]
    rfl

/-! ## Claims -/

/-- C1: for a MultiPolygon whose member polygons each have an outer ring,
the top-level containment test returns `true` iff at least one member
polygon contains the point — inside that polygon's outer (first) ring and
inside none of its hole (remaining) rings. -/
theorem inside_multiPolygon_iff (pt : ℚ × ℚ)
    (polys : List (List (List (ℚ × ℚ)))) (h : ∀ p ∈ polys, p ≠ []) :
    inside pt (Geometry.multiPolygon polys) = some true ↔
      ∃ p ∈ polys, inRing pt (p.headD []) = true ∧
        ∀ hole ∈ p.tail, inRing pt hole = false :=
  polysLoop_true_iff pt polys h

/-- C1 witness: two disjoint unit squares at `(0,0)-(1,1)` and `(5,5)-(6,6)`;
the point `(5.5, 5.5)` is contained in the second polygon only, and the
top-level test returns `true`. -/
theorem inside_multiPolygon_two_squares :
    inside (11/2, 11/2) (Geometry.multiPolygon [[unitSquare], [farSquare]]) =
      some true := by
  refine (inside_multiPolygon_iff (11/2, 11/2) [[unitSquare], [farSquare]]
    (by simp [unitSquare, farSquare])).mpr ⟨[farSquare], by simp, ?_, by simp⟩
  norm_num [inRing, inRingAux, edgeResCore, horizHit, yReject, vtx, prevIdx,
    intersectX, List.getD, min_def, max_def, farSquare]

/-- C2: for every point and polygon whose outer ring contains the point, the
polygon-level result is `false` if some hole ring contains the point and
`true` if no hole ring contains it. -/
theorem polygonContains_hole_rule (pt : ℚ × ℚ) (outer : List (ℚ × ℚ))
    (holes : List (List (ℚ × ℚ))) (h : inRing pt outer = true) :
    ((∃ hole ∈ holes, inRing pt hole = true) →
      polygonContains pt (outer :: holes) = some false) ∧
    ((∀ hole ∈ holes, inRing pt hole = false) →
      polygonContains pt (outer :: holes) = some true) := by
  constructor
  · rintro ⟨hole, hm, hh⟩
    have : (holes.any fun k => inRing pt k) = true :=
      List.any_eq_true.mpr ⟨hole, hm, hh⟩
    simp [polygonContains, h, this]
  · intro hall
    have : (holes.any fun k => inRing pt k) = false := by
      simp only [List.any_eq_false]
      intro hole hm
      simp [hall hole hm]
    simp [polygonContains, h, this]

/-- C2 witness: outer square `(0,0)-(2,2)` with hole `(0.5,0.5)-(1.5,1.5)`:
the point `(1,1)` inside the hole gives `false`, the point `(0.2,0.2)`
outside the hole gives `true`. -/
theorem polygonContains_hole_rule_example :
    polygonContains (1, 1) [holedOuter, holedHole] = some false ∧
    polygonContains (1/5, 1/5) [holedOuter, holedHole] = some true := by
  constructor
  · exact (polygonContains_hole_rule (1, 1) holedOuter [holedHole]
      (by norm_num [inRing, inRingAux, edgeResCore, horizHit, yReject, vtx,
        prevIdx, intersectX, List.getD, min_def, max_def, holedOuter])).1
      ⟨holedHole, by simp, by norm_num [inRing, inRingAux, edgeResCore,
        horizHit, yReject, vtx, prevIdx, intersectX, List.getD, min_def,
        max_def, holedHole]⟩
  · refine (polygonContains_hole_rule (1/5, 1/5) holedOuter [holedHole]
      (by norm_num [inRing, inRingAux, edgeResCore, horizHit, yReject, vtx,
        prevIdx, intersectX, List.getD, min_def, max_def, holedOuter])).2 ?_
    intro hole hm
    have : hole = holedHole := by simpa using hm
    subst this
    norm_num [inRing, inRingAux, edgeResCore, horizHit, yReject, vtx,
      prevIdx, intersectX, List.getD, min_def, max_def, holedHole]

/-- C3 counterexample: in `hexRing`, the edge with index `i = 2` (from vertex
`ring[1] = (2,0)` to vertex `ring[2] = (0,0)`) is horizontal, lies at the
point's y, and contains the point's x in its inclusive x-range — yet
`inRing (1,0) hexRing = false`: the preceding edge toggles the parity at the
shared vertex `(2,0)` and the extra index advance skips the horizontal edge
entirely. -/
theorem inRing_horizontal_edge_skipped_cex :
    2 < hexRing.length ∧
    horizHit (1, 0) (vtx hexRing 2) (vtx hexRing (prevIdx hexRing 2)) ∧
    inRing (1, 0) hexRing = false := by
  refine ⟨by norm_num [hexRing], ?_, ?_⟩
  · norm_num [horizHit, vtx, prevIdx, hexRing, List.getD, min_def, max_def]
  · norm_num [inRing, inRingAux, edgeResCore, horizHit, yReject, vtx,
      prevIdx, intersectX, List.getD, min_def, max_def, hexRing]

/-- C3 (amended): whenever the scan of the ring containment test actually
evaluates an edge whose two endpoints share the point's
y-coordinate and whose inclusive x-range contains the point's x, it returns
`true` immediately, regardless of the remaining edges and of the current
parity state.  (The original claim fails only because such an edge may be
skipped by the extra index advance of the vertex rule, see the
counterexample.) -/
theorem inRingAux_horizHit_eval (pt : ℚ × ℚ) (ring : List (ℚ × ℚ))
    (fuel i : Nat) (b : Bool) (hi : i < ring.length)
    (hh : horizHit pt (vtx ring i) (vtx ring (prevIdx ring i))) :
    inRingAux pt ring (fuel + 1) i b = true := by
  have hres : edgeResCore pt (vtx ring i) (vtx ring (prevIdx ring i)) =
      EdgeRes.hit := (edgeResCore_hit_iff _ _ _).mpr (Or.inl hh)
  simp [inRingAux, hi, hres]

/-- C3 witness: evaluating the unit square's bottom edge (index 1) at the
mid-edge point `(0.5, 0)` returns `true`. -/
theorem inRingAux_horizHit_eval_example :
    inRingAux ((1:ℚ)/2, (0:ℚ)) unitSquare 3 1 false = true :=
  inRingAux_horizHit_eval (1/2, 0) unitSquare 2 1 false
    (by norm_num [unitSquare])
    (by norm_num [horizHit, vtx, prevIdx, unitSquare, List.getD, min_def,
      max_def])

/-- C4: if some non-horizontal edge has the point's y within its inclusive
y-range and the point's x exactly equal to the computed intersection
x-coordinate, the ring containment test returns `true`; in particular on the
unit square both the vertex `(0,0)` and the mid-edge point `(0.5, 0)` yield
`true` (the latter via the horizontal-edge branch). -/
theorem inRing_onSegment :
    (∀ (pt : ℚ × ℚ) (ring : List (ℚ × ℚ)),
      (∃ i < ring.length,
        onSegHit pt (vtx ring i) (vtx ring (prevIdx ring i))) →
      inRing pt ring = true) ∧
    inRing (0, 0) unitSquare = true ∧ inRing (1/2, 0) unitSquare = true := by
  refine ⟨?_, ?_, ?_⟩
  · rintro pt ring ⟨i, hi, hseg⟩
    exact inRingAux_onSeg_reach pt ring ring.length 0 false i (Nat.zero_le _)
      hi (by omega) hseg
  · norm_num [inRing, inRingAux, edgeResCore, horizHit, yReject, vtx,
      prevIdx, intersectX, List.getD, min_def, max_def, unitSquare]
  · norm_num [inRing, inRingAux, edgeResCore, horizHit, yReject, vtx,
      prevIdx, intersectX, List.getD, min_def, max_def, unitSquare]

/-- C4 witness: the vertex `(0,0)` of the unit square lies exactly on the
edge of index 0 (from `(0,1)` to `(0,0)`), and the test returns `true`. -/
theorem inRing_onSegment_origin : inRing ((0:ℚ), (0:ℚ)) unitSquare = true :=
  inRing_onSegment.1 (0, 0) unitSquare
    ⟨0, by norm_num [unitSquare],
      by norm_num [onSegHit, yReject, vtx, prevIdx, intersectX, unitSquare,
        List.getD, min_def, max_def]⟩

/-- C5: when the left-of-intersection toggle fires on an edge whose current
vertex y equals the point's y, the loop continues at index `i + 2` with the
parity flipped exactly once: the immediately following edge is never
evaluated. -/
theorem inRingAux_vertex_double_advance (pt : ℚ × ℚ) (ring : List (ℚ × ℚ))
    (fuel i : Nat) (b : Bool) (hi : i < ring.length)
    (ht : edgeResCore pt (vtx ring i) (vtx ring (prevIdx ring i)) =
      EdgeRes.toggle)
    (hy : (vtx ring i).2 = pt.2) :
    inRingAux pt ring (fuel + 1) i b = inRingAux pt ring fuel (i + 2) (!b) := by
  simp [inRingAux, hi, ht, hy]

/-- C5 witness: in `triRing` with the ray through `(0,0)`, the edge at index
1 (from `(0,-1)` to `(2,0)`) toggles at the on-ray vertex `(2,0)` and the
loop jumps from index 1 to index 3. -/
theorem inRingAux_vertex_double_advance_example :
    inRingAux ((0:ℚ), (0:ℚ)) triRing 3 1 false =
      inRingAux ((0:ℚ), (0:ℚ)) triRing 2 3 (!false) :=
  inRingAux_vertex_double_advance (0, 0) triRing 2 1 false
    (by norm_num [triRing])
    (by norm_num [edgeResCore, horizHit, yReject, vtx, prevIdx, intersectX,
      triRing, List.getD, min_def, max_def])
    (by norm_num [vtx, triRing, List.getD])

/-- C6 counterexample: on the unit square with the point `(2, 0)`, the bottom
edge has `yi = yj = pt.y` but the point's x lies outside the edge's x-range,
so neither the horizontal-edge branch nor the vertical-range reject fires and
the division is evaluated with a zero denominator (`NaN` in the source);
the final result is still `false`. -/
theorem inRingDivZero_unitSquare_cex :
    inRingDivZero ((2:ℚ), 0) unitSquare = true ∧
    inRing ((2:ℚ), 0) unitSquare = false := by
  constructor
  · norm_num [inRingDivZero, divZeroAux, horizHit, yReject, vtx, prevIdx,
      intersectX, List.getD, min_def, max_def, unitSquare]
  · norm_num [inRing, inRingAux, edgeResCore, horizHit, yReject, vtx,
      prevIdx, intersectX, List.getD, min_def, max_def, unitSquare]

/-- C6 (amended): the intersection division is reached with a zero
denominator only at an edge whose two endpoint y-values both equal the
point's y while the point's x lies strictly outside the edge's inclusive
x-range (the case the original claim missed); every other equal-y edge is
handled by the horizontal-edge branch or rejected by the vertical-range
check first. -/
theorem inRingDivZero_only_horizontal_miss (pt : ℚ × ℚ)
    (ring : List (ℚ × ℚ)) (h : inRingDivZero pt ring = true) :
    ∃ i < ring.length,
      (vtx ring i).2 = (vtx ring (prevIdx ring i)).2 ∧
      (vtx ring i).2 = pt.2 ∧
      (pt.1 < min (vtx ring i).1 (vtx ring (prevIdx ring i)).1 ∨
        max (vtx ring i).1 (vtx ring (prevIdx ring i)).1 < pt.1) :=
  divZeroAux_imp pt ring ring.length 0 h

/-- C6 witness: the amended statement instantiated at the counterexample
input `(2, 0)` on the unit square. -/
theorem inRingDivZero_only_horizontal_miss_example :
    ∃ i < unitSquare.length,
      (vtx unitSquare i).2 = (vtx unitSquare (prevIdx unitSquare i)).2 ∧
      (vtx unitSquare i).2 = ((2:ℚ), (0:ℚ)).2 ∧
      (((2:ℚ), (0:ℚ)).1 < min (vtx unitSquare i).1
          (vtx unitSquare (prevIdx unitSquare i)).1 ∨
        max (vtx unitSquare i).1
          (vtx unitSquare (prevIdx unitSquare i)).1 < ((2:ℚ), (0:ℚ)).1) :=
  inRingDivZero_only_horizontal_miss (2, 0) unitSquare
    (by norm_num [inRingDivZero, divZeroAux, horizHit, yReject, vtx, prevIdx,
      intersectX, List.getD, min_def, max_def, unitSquare])

/-- C7 counterexample: for `pentRing` (head vertex `(2,0)`) and the boundary
point `(1,0)`, the open form returns `false` while the explicitly closed
form (first vertex appended at the end) returns `true`: in the open form the
closing edge toggles at the on-ray vertex `(2,0)` and the skip swallows the
horizontal boundary edge, while in the closed form that horizontal edge is
evaluated and hits. -/
theorem inRing_closed_form_cex :
    inRing (1, 0) pentRing = false ∧
    inRing (1, 0) (pentRing ++ [(2, 0)]) = true := by
  constructor
  · norm_num [inRing, inRingAux, edgeResCore, horizHit, yReject, vtx,
      prevIdx, intersectX, List.getD, min_def, max_def, pentRing]
  · norm_num [inRing, inRingAux, edgeResCore, horizHit, yReject, vtx,
      prevIdx, intersectX, List.getD, min_def, max_def, pentRing]

/-- C7 (amended): the ring containment test gives the same boolean on the
open form and on the form with the first vertex duplicated as an explicit
closing vertex, provided no vertex of the ring lies exactly on the
horizontal ray through the point (`∀ v ∈ ring, v.2 ≠ pt.2`).  In that case
no vertex-aligned skip can fire, the duplicated vertex contributes a
degenerate edge that passes, and the closed form merely processes the
wrap-around edge at the end instead of the beginning — which cannot change
a hit/parity outcome.  When a vertex does lie on the ray the two forms can
disagree (see the counterexample). -/
theorem inRing_open_closed_of_no_vertex_align (pt v : ℚ × ℚ)
    (rest : List (ℚ × ℚ)) (h : noVertexOnRay pt (v :: rest)) :
    inRing pt (v :: rest) = inRing pt ((v :: rest) ++ [v]) := by
  have hv : v.2 ≠ pt.2 := h v (List.mem_cons_self _ _)
  have h' : noVertexOnRay pt ((v :: rest) ++ [v]) := by
    intro w hw
    rcases List.mem_append.mp hw with h1 | h2
    · exact h w h1
    · rw [List.mem_singleton.mp h2]; exact hv
  have hn : (v :: rest).length = rest.length + 1 := by simp
  have hlen' : ((v :: rest) ++ [v]).length = rest.length + 2 := by simp
  have e1 : inRing pt (v :: rest) =
      processRes (resList pt (v :: rest) (rest.length + 1) 0) false := by
    rw [inRing]
    have := inRingAux_eq_processRes pt (v :: rest) h
      ((v :: rest).length) 0 false (by omega)
    simpa [hn] using this
  have e2 : inRing pt ((v :: rest) ++ [v]) =
      processRes (resList pt ((v :: rest) ++ [v]) (rest.length + 2) 0)
        false := by
    rw [inRing]
    have := inRingAux_eq_processRes pt ((v :: rest) ++ [v]) h'
      (((v :: rest) ++ [v]).length) 0 false (by omega)
    simpa [hlen'] using this
  have hdeg : edgeResCore pt (vtx ((v :: rest) ++ [v]) 0)
      (vtx ((v :: rest) ++ [v]) (prevIdx ((v :: rest) ++ [v]) 0)) =
      EdgeRes.pass := by
    have h0 : vtx ((v :: rest) ++ [v]) 0 = v := rfl
    have hp : prevIdx ((v :: rest) ++ [v]) 0 = rest.length + 1 := by
      rw [prevIdx, if_pos rfl, hlen']
      omega
    have hpv : vtx ((v :: rest) ++ [v]) (rest.length + 1) = v := by
      have := vtx_concat_self (v :: rest) v
      simpa [hn] using this
    rw [h0, hp, hpv]
    exact edgeResCore_self pt v hv
  have hT := resList_closed pt v rest rest.length 1 (le_refl 1)
    (by simp only [List.length_cons]; omega)
  have closed_eq : resList pt ((v :: rest) ++ [v]) (rest.length + 2) 0 =
      edgeResCore pt (vtx ((v :: rest) ++ [v]) 0)
        (vtx ((v :: rest) ++ [v]) (prevIdx ((v :: rest) ++ [v]) 0)) ::
      resList pt ((v :: rest) ++ [v]) (rest.length + 1) 1 := rfl
  have open_eq : resList pt (v :: rest) (rest.length + 1) 0 =
      edgeResCore pt (vtx (v :: rest) 0)
        (vtx (v :: rest) (prevIdx (v :: rest) 0)) ::
      resList pt (v :: rest) rest.length 1 := rfl
  rw [e1, e2, closed_eq, hdeg, hT, open_eq]
  rw [show processRes (EdgeRes.pass :: (resList pt (v :: rest) rest.length 1 ++
      [edgeResCore pt (vtx (v :: rest) 0)
        (vtx (v :: rest) (prevIdx (v :: rest) 0))])) false =
    processRes (resList pt (v :: rest) rest.length 1 ++
      [edgeResCore pt (vtx (v :: rest) 0)
        (vtx (v :: rest) (prevIdx (v :: rest) 0))]) false from rfl]
  exact processRes_rotate _ _ _

/-- C7 witness: the unit square and the interior point `(0.5, 0.5)` (whose
y differs from every vertex y): open and closed forms agree. -/
theorem inRing_open_closed_example :
    inRing ((1:ℚ)/2, (1:ℚ)/2) unitSquare =
      inRing ((1:ℚ)/2, (1:ℚ)/2) (unitSquare ++ [(0, 0)]) :=
  inRing_open_closed_of_no_vertex_align (1/2, 1/2) (0, 0)
    [(1, 0), (1, 1), (0, 1)]
    (by intro w hw; fin_cases hw <;> norm_num)

/-- C8: a single Polygon is normalized to a one-element polygon list
(`polys = [polys]` in the source), so the result equals that of the
MultiPolygon containing it as its only member. -/
theorem inside_polygon_eq_singleton_multiPolygon (pt : ℚ × ℚ)
    (coords : List (List (ℚ × ℚ))) :
    inside pt (Geometry.polygon coords) =
      inside pt (Geometry.multiPolygon [coords]) := rfl

/-- C9 counterexample: with a Point-typed surface whose coordinates equal the
query point's, the claim predicts `true`; the code instead indexes the
numeric coordinates as if they were rings and throws a `TypeError`
(modelled as `none`). -/
theorem inside_point_surface_cex :
    inside ((1:ℚ), (1:ℚ)) (Geometry.point (1, 1)) = none ∧
    inside ((1:ℚ), (1:ℚ)) (Geometry.point (1, 1)) ≠ some true := by
  exact ⟨rfl, by simp [inside]⟩

/-- C9 (amended): the entry point does not handle Point-typed surfaces at
all — for every pair of points it evaluates `polys[0][0]` on a numeric
coordinate array and fails with a `TypeError` (modelled as `none`); it never
performs point-to-point coordinate equality. -/
theorem inside_point_surface_none (p q : ℚ × ℚ) :
    inside p (Geometry.point q) = none := rfl

/-- C10: the ring test on a zero-vertex ring runs the loop zero times and
returns `false` (no error), and the top-level test on a MultiPolygon with no
member polygons runs the outer loop zero times and returns `false`
(no error, hence `some false` rather than `none`). -/
theorem inRing_nil_and_inside_empty_multiPolygon (pt : ℚ × ℚ) :
    inRing pt [] = false ∧
    inside pt (Geometry.multiPolygon []) = some false := ⟨rfl, rfl⟩

end TurfInside
